import Mathlib

/-!
Shallow embedding of src/h3-quinn/src/lib.rs (the h3 ↔ quinn adapter):
the reorder buffer inside RecvStream::poll_data, the SendStream single-slot
write adapter, BidiStream::split, and the Connection open-stream slots.

Bytes are modelled as `List Nat`; a `quinn` BTreeMap is modelled as an
association list sorted strictly by key (the shape every reachable map has,
since it is built by ordered insertion); a Rust panic is modelled as `none`.
-/

namespace H3Quinn

/-- One fresh poll of the transport's unordered read
(`self.stream.read_unordered().poll_unpin(cx)`, lib.rs line 202):
the read is pending, the stream has ended (`Ok(None)`), the transport reports
a read error, or a chunk of bytes tagged with its starting offset arrives. -/
inductive ReadResult where
  | pending : ReadResult
  | finished : ReadResult
  | rerror : Nat → ReadResult
  | rchunk : List Nat → Nat → ReadResult
deriving DecidableEq

/-- Result of one `poll_data` call: `Poll::Pending`,
`Poll::Ready(Ok(Some bytes))` / `Poll::Ready(Ok(None))`, or
`Poll::Ready(Err e)`. -/
inductive PollOut where
  | pending : PollOut
  | ready : Option (List Nat) → PollOut
  | perror : Nat → PollOut
deriving DecidableEq

/-- State of `RecvStream` (lib.rs lines 178-182): the cursor `offset`
(bytes already yielded) and the `chunks` BTreeMap of buffered out-of-order
chunks keyed by starting offset. -/
structure RecvStream where
  offset : Nat
  chunks : List (Nat × List Nat)
deriving DecidableEq

/-- `Bytes::advance cnt`: drop the first `cnt` bytes; the bytes crate asserts
`cnt <= remaining` and panics otherwise, modelled as `none`. -/
def bytesAdvance (cnt : Nat) (b : List Nat) : Option (List Nat) :=
  if cnt ≤ b.length then some (b.drop cnt) else none

/-- `BTreeMap::insert` on an association list sorted by key: keeps the keys
sorted, replacing the value if the key is present. -/
def btInsert (k : Nat) (v : List Nat) : List (Nat × List Nat) → List (Nat × List Nat)
  | [] => [(k, v)]
  | (k', v') :: rest =>
    if k < k' then (k, v) :: (k', v') :: rest
    else if k = k' then (k, v) :: rest
    else (k', v') :: btInsert k v rest

/-- `BTreeMap::remove(&k)` followed by `.unwrap()`: returns the removed value
and the remaining entries, or `none` (unwrap panic) if the key is absent. -/
def btRemove (k : Nat) : List (Nat × List Nat) → Option (List Nat × List (Nat × List Nat))
  | [] => none
  | (k', v) :: rest =>
    if k' = k then some (v, rest)
    else (btRemove k rest).map (fun p => (p.1, (k', v) :: p.2))

/-- The buffered-chunk scan at the end of `poll_data` (lib.rs lines 219-233):
`self.chunks.keys().take_while(|x| **x <= self.offset).next()` finds the first
(smallest, since BTreeMap iterates in key order) buffered key at or below the
cursor; if found, that entry is removed, trimmed by `offset - key` bytes, the
cursor advanced by the trimmed length, and the trimmed chunk returned Ready;
otherwise the step-1 result `ret` is returned unchanged. -/
def scanBuffered (s : RecvStream) (ret : PollOut) : Option (RecvStream × PollOut) :=
  match ((s.chunks.map Prod.fst).takeWhile (fun x => x ≤ s.offset)).head? with
  | none => some (s, ret)
  | some k =>
    match btRemove k s.chunks with
    | none => none
    | some (v, rest) =>
      (bytesAdvance (s.offset - k) v).map (fun chunk =>
        (⟨s.offset + chunk.length, rest⟩, PollOut.ready (some chunk)))

/-- `RecvStream::poll_data` (lib.rs lines 198-234). One fresh transport read
per call: an error returns immediately with the buffered state untouched; an
in-order chunk (starting offset ≤ cursor) is trimmed, advances the cursor and
returns immediately, bypassing the buffer scan; a chunk beyond the cursor is
inserted into the map with a tentative Pending result; Pending/end-of-stream
fall through; all non-error fall-through cases then run the buffered scan. -/
def poll_data (s : RecvStream) (r : ReadResult) : Option (RecvStream × PollOut) :=
  match r with
  | .rerror e => some (s, .perror e)
  | .rchunk data off =>
    if off ≤ s.offset then
      (bytesAdvance (s.offset - off) data).map (fun chunk =>
        ({ s with offset := s.offset + chunk.length }, PollOut.ready (some chunk)))
    else
      scanBuffered { s with chunks := btInsert off data s.chunks } .pending
  | .pending => scanBuffered s .pending
  | .finished => scanBuffered s (.ready none)

/-- Repeatedly call `poll_data`, one transport read result per poll,
collecting the poll outcomes; `none` if any poll panics. -/
def runPolls : RecvStream → List ReadResult → Option (RecvStream × List PollOut)
  | s, [] => some (s, [])
  | s, r :: rs =>
    (poll_data s r).bind fun p =>
      (runPolls p.1 rs).map fun q => (q.1, p.2 :: q.2)

/-- Concatenation of all byte chunks yielded by a sequence of poll outcomes. -/
def collectBytes : List PollOut → List Nat
  | [] => []
  | PollOut.ready (some b) :: rest => b ++ collectBytes rest
  | _ :: rest => collectBytes rest

/-- Cut a byte region starting at absolute offset `off` into consecutive
chunks of the given sizes, each tagged with its starting offset: the canonical
in-order chunking of a contiguous region. -/
def mkSegs (off : Nat) (rest : List Nat) : List Nat → List (Nat × List Nat)
  | [] => []
  | n :: ns => (off, rest.take n) :: mkSegs (off + n) (rest.drop n) ns

/-- Invariant tying a `RecvStream` state to the original byte region `orig`
during a run that delivers a permutation of a positive-size chunking of
`orig`: the cursor has consumed a prefix of `orig`; the buffered map is
key-sorted; and the buffered chunks together with the not-yet-delivered
arrivals `rem` are, as a multiset, exactly the canonical chunking (by the
remaining `sizes`) of the not-yet-yielded region of `orig`. -/
structure Inv (orig sizes : List Nat) (rem : List (Nat × List Nat))
    (s : RecvStream) : Prop where
  hpos : ∀ n ∈ sizes, 0 < n
  hsum : s.offset + sizes.sum = orig.length
  hsorted : List.Pairwise (fun p q => p.1 < q.1) s.chunks
  hperm : (s.chunks ++ rem).Perm (mkSegs s.offset (orig.drop s.offset) sizes)

/-- VarInt::MAX of the QUIC transport: 2^62 - 1, the largest representable
variable-length integer. -/
def varIntMax : Nat := 4611686018427387903

/-- `VarInt::from_u64`: succeeds exactly on values representable as a QUIC
varint, i.e. at most `varIntMax`. -/
def varIntFromU64 (x : Nat) : Option Nat := if x ≤ varIntMax then some x else none

/-- `RecvStream::stop_sending` (lib.rs lines 236-240): converts the
application error code with `VarInt::from_u64(..).expect("invalid error_code")`
and passes it to the transport's best-effort stop signal; `none` models the
`expect` panic on an unrepresentable code. -/
def stop_sending (error_code : Nat) : Option Nat :=
  varIntFromU64 error_code

/-- What one poll of the in-flight `open_bi`/`open_uni` future reports. -/
inductive OpenPoll where
  | pending : OpenPoll
  | ready_ok : OpenPoll
  | ready_err : OpenPoll
deriving DecidableEq

/-- Outcome of `poll_open_bidi_stream` / `poll_open_send_stream`. -/
inductive OpenOut where
  | pending : OpenOut
  | opened : OpenOut
  | failed : OpenOut
deriving DecidableEq

/-- The open-operation slots of `Connection` (lib.rs lines 22-28), with a
transport stub counting `open_bi`/`open_uni` invocations: `opening_bi` /
`opening_uni` hold the id of the in-flight open operation, and `bi_opened` /
`uni_opened` count how many operations were ever created. -/
structure Connection where
  opening_bi : Option Nat
  bi_opened : Nat
  opening_uni : Option Nat
  uni_opened : Nat
deriving DecidableEq

/-- `Connection::poll_open_bidi_stream` (lib.rs lines 73-86): if no open is in
flight, create one (counting the invocation); poll it; Pending leaves the slot
populated; on completion the source returns the result with `opening_bi` still
populated — the code contains no statement clearing the slot. -/
def poll_open_bidi_stream (s : Connection) (r : OpenPoll) : Connection × OpenOut :=
  let s1 := if s.opening_bi.isNone
    then { s with opening_bi := some s.bi_opened, bi_opened := s.bi_opened + 1 }
    else s
  match r with
  | .pending => (s1, .pending)
  | .ready_ok => (s1, .opened)
  | .ready_err => (s1, .failed)

/-- `Connection::poll_open_send_stream` (lib.rs lines 99-109): identical shape
on the unidirectional slot; the slot is likewise never cleared. -/
def poll_open_send_stream (s : Connection) (r : OpenPoll) : Connection × OpenOut :=
  let s1 := if s.opening_uni.isNone
    then { s with opening_uni := some s.uni_opened, uni_opened := s.uni_opened + 1 }
    else s
  match r with
  | .pending => (s1, .pending)
  | .ready_ok => (s1, .opened)
  | .ready_err => (s1, .failed)

/-- State of `SendStream` (lib.rs lines 267-270): the single pending-write
slot `writing`, plus `written`, the log of bytes the transport has accepted so
far (the observable state of the opaque `quinn` send handle). -/
structure SendStream where
  writing : Option (List Nat)
  written : List Nat
deriving DecidableEq

/-- Result of `send_data`. -/
inductive SendDataOut where
  | ok : SendDataOut
  | notReady : SendDataOut
deriving DecidableEq

/-- `SendStream::send_data` (lib.rs lines 310-316): rejected with
`SendStreamError::NotReady` while a buffer is pending, leaving all state
untouched; otherwise the buffer is stored in the slot. -/
def send_data (s : SendStream) (data : List Nat) : SendStream × SendDataOut :=
  match s.writing with
  | some _ => (s, .notReady)
  | none => ({ s with writing := some data }, .ok)

/-- What the transport does with the `write_all` created by one `poll_ready`
call: it accepts `n` bytes before blocking (flow control), or fails. -/
inductive WritePollIn where
  | accept : Nat → WritePollIn
  | wfail : WritePollIn
deriving DecidableEq

/-- Result of `poll_ready`. -/
inductive SendPollOut where
  | pending : SendPollOut
  | ready_ok : SendPollOut
  | ready_err : SendPollOut
deriving DecidableEq

/-- `SendStream::poll_ready` (lib.rs lines 292-298): with no pending buffer it
returns Ready(Ok) at once. With a pending buffer it builds a fresh
`write_all(data.bytes())` over the whole buffer and polls it once: if the
transport accepts everything the slot is cleared and Ready(Ok) returned; on a
write error, Ready(Err) with the slot untouched; if only `n < len` bytes are
accepted the future returns Pending — those `n` bytes are already in the
transport, but the slot (never advanced) still holds the whole buffer. -/
def poll_ready (s : SendStream) (w : WritePollIn) : SendStream × SendPollOut :=
  match s.writing with
  | none => ({ s with writing := none }, .ready_ok)
  | some data =>
    match w with
    | .wfail => (s, .ready_err)
    | .accept n =>
      if data.length ≤ n then
        (⟨none, s.written ++ data⟩, .ready_ok)
      else
        ({ s with written := s.written ++ data.take n }, .pending)

/-- `SendStream::reset` (lib.rs lines 304-308): the application error code is
converted with `VarInt::from_u64(..).unwrap_or(VarInt::MAX)` — an
unrepresentable code degrades to the maximum — and handed to the transport's
best-effort reset. Returns the code actually passed to the transport. -/
def reset (reset_code : Nat) : Nat :=
  (varIntFromU64 reset_code).getD varIntMax

/-- `BidiStream` (lib.rs lines 112-119): one send half, one receive half. -/
structure BidiStream where
  send : SendStream
  recv : RecvStream
deriving DecidableEq

/-- `BidiStream::split` (lib.rs lines 129-132): `(self.send, self.recv)`. -/
def split (b : BidiStream) : SendStream × RecvStream :=
  (b.send, b.recv)

/- Scenario sanity checks (spec section 8, end-to-end scenarios A and B). -/
example :
    runPolls ⟨0, []⟩
      [ReadResult.rchunk [1, 2] 0, ReadResult.rchunk [3, 4] 2, ReadResult.finished]
      = some (⟨4, []⟩,
        [PollOut.ready (some [1, 2]), PollOut.ready (some [3, 4]), PollOut.ready none]) := by
  decide

example :
    runPolls ⟨0, []⟩
      [ReadResult.rchunk [3, 4] 2, ReadResult.rchunk [1, 2] 0,
        ReadResult.pending, ReadResult.finished]
      = some (⟨4, []⟩,
        [PollOut.pending, PollOut.ready (some [1, 2]),
          PollOut.ready (some [3, 4]), PollOut.ready none]) := by
  decide

/-! ## Helper lemmas about the reorder buffer -/

theorem btInsert_mem {k : Nat} {v : List Nat} :
    ∀ {m : List (Nat × List Nat)} {p : Nat × List Nat},
      p ∈ btInsert k v m → p = (k, v) ∨ p ∈ m := by
  intro m
  induction m with
  | nil => intro p hp; simp [btInsert] at hp; exact Or.inl hp
  | cons hd tl ih =>
    obtain ⟨k1, v1⟩ := hd
    intro p hp
    simp only [btInsert] at hp
    by_cases h1 : k < k1
    · rw [if_pos h1] at hp
      rcases List.mem_cons.mp hp with h | h
      · exact Or.inl h
      · exact Or.inr h
    · by_cases h2 : k = k1
      · rw [if_neg h1, if_pos h2] at hp
        rcases List.mem_cons.mp hp with h | h
        · exact Or.inl h
        · exact Or.inr (List.mem_cons_of_mem _ h)
      · rw [if_neg h1, if_neg h2] at hp
        rcases List.mem_cons.mp hp with h | h
        · exact Or.inr (h ▸ List.mem_cons_self _ _)
        · rcases ih h with h3 | h3
          · exact Or.inl h3
          · exact Or.inr (List.mem_cons_of_mem _ h3)

theorem btInsert_pairwise (k : Nat) (v : List Nat) :
    ∀ {m : List (Nat × List Nat)},
      List.Pairwise (fun p q => p.1 < q.1) m →
      List.Pairwise (fun p q => p.1 < q.1) (btInsert k v m) := by
  intro m
  induction m with
  | nil => intro _; simp [btInsert]
  | cons hd tl ih =>
    obtain ⟨k1, v1⟩ := hd
    intro hm
    rw [List.pairwise_cons] at hm
    obtain ⟨hhd, htl⟩ := hm
    simp only [btInsert]
    by_cases h1 : k < k1
    · rw [if_pos h1, List.pairwise_cons]
      refine ⟨?_, ?_⟩
      · intro q hq
        rcases List.mem_cons.mp hq with h | h
        · rw [h]; exact h1
        · exact lt_trans h1 (hhd q h)
      · rw [List.pairwise_cons]
        exact ⟨hhd, htl⟩
    · by_cases h2 : k = k1
      · rw [if_neg h1, if_pos h2, List.pairwise_cons]
        exact ⟨fun q hq => by rw [h2]; exact hhd q hq, htl⟩
      · rw [if_neg h1, if_neg h2, List.pairwise_cons]
        refine ⟨?_, ih htl⟩
        intro q hq
        rcases btInsert_mem hq with h | h
        · rw [h]
          exact lt_of_le_of_ne (Nat.le_of_not_lt h1) (Ne.symm h2)
        · exact hhd q h

theorem btInsert_perm (k : Nat) (v : List Nat) :
    ∀ {m : List (Nat × List Nat)}, k ∉ m.map Prod.fst →
      (btInsert k v m).Perm ((k, v) :: m) := by
  intro m
  induction m with
  | nil => intro _; simp [btInsert]
  | cons hd tl ih =>
    obtain ⟨k1, v1⟩ := hd
    intro hk
    simp only [List.map_cons, List.mem_cons] at hk
    push_neg at hk
    simp only [btInsert]
    by_cases h1 : k < k1
    · simp only [if_pos h1]
      exact List.Perm.refl _
    · rw [if_neg h1, if_neg hk.1]
      exact ((ih hk.2).cons (k1, v1)).trans (List.Perm.swap (k, v) (k1, v1) tl)

/-- The buffered scan when the map is empty: the step-1 result passes
through unchanged. -/
theorem scanBuffered_empty (s : RecvStream) (ret : PollOut) (h : s.chunks = []) :
    scanBuffered s ret = some (s, ret) := by
  simp [scanBuffered, h]

/-- The buffered scan when the smallest buffered key is beyond the cursor:
the step-1 result passes through unchanged. -/
theorem scanBuffered_idle (s : RecvStream) (ret : PollOut) (k : Nat) (v : List Nat)
    (rest : List (Nat × List Nat)) (h : s.chunks = (k, v) :: rest)
    (hk : s.offset < k) :
    scanBuffered s ret = some (s, ret) := by
  simp [scanBuffered, h, List.takeWhile, Nat.not_le.mpr hk]

/-- The buffered scan when the first buffered entry has key at or below the
cursor: the entry is removed, trimmed by `offset - key` bytes, and returned,
with the cursor advanced by the trimmed length. -/
theorem scanBuffered_fire (s : RecvStream) (ret : PollOut) (k : Nat) (v : List Nat)
    (rest : List (Nat × List Nat)) (h : s.chunks = (k, v) :: rest)
    (hk : k ≤ s.offset) (hlen : s.offset - k ≤ v.length) :
    scanBuffered s ret
      = some (⟨s.offset + (v.drop (s.offset - k)).length, rest⟩,
          PollOut.ready (some (v.drop (s.offset - k)))) := by
  simp [scanBuffered, h, List.takeWhile, hk, btRemove, bytesAdvance, hlen]

/-- The fresh in-order path of `poll_data`: a chunk whose starting offset is
at or below the cursor and which extends at least to the cursor is trimmed,
advances the cursor, and is returned right away. -/
theorem poll_data_fresh (s : RecvStream) (data : List Nat) (off : Nat)
    (h1 : off ≤ s.offset) (h2 : s.offset - off ≤ data.length) :
    poll_data s (ReadResult.rchunk data off)
      = some ({ s with offset := s.offset + (data.drop (s.offset - off)).length },
          PollOut.ready (some (data.drop (s.offset - off)))) := by
  simp [poll_data, h1, bytesAdvance, h2]

/-- The fresh path panics (`Bytes::advance` assertion) when the chunk ends
strictly below the cursor. -/
theorem poll_data_fresh_panic (s : RecvStream) (data : List Nat) (off : Nat)
    (h1 : off ≤ s.offset) (h2 : data.length < s.offset - off) :
    poll_data s (ReadResult.rchunk data off) = none := by
  simp [poll_data, h1, bytesAdvance, Nat.not_le.mpr h2]

/-- The buffered scan panics when the eligible first entry ends strictly
below the cursor (`Bytes::advance` past the end). -/
theorem scanBuffered_fire_panic (s : RecvStream) (ret : PollOut) (k : Nat)
    (v : List Nat) (rest : List (Nat × List Nat)) (h : s.chunks = (k, v) :: rest)
    (hk : k ≤ s.offset) (hlen : v.length < s.offset - k) :
    scanBuffered s ret = none := by
  simp [scanBuffered, h, List.takeWhile, hk, btRemove, bytesAdvance,
    Nat.not_le.mpr hlen]

/-- Any successful buffered scan whose outcome yields no chunk left the state
unchanged, passed the step-1 result through, and certifies that every
buffered key (in a key-sorted map) is strictly beyond the cursor. -/
theorem scan_no_yield (s : RecvStream) (ret : PollOut) (s2 : RecvStream) (o : PollOut)
    (h : scanBuffered s ret = some (s2, o))
    (hne : ∀ b, o ≠ PollOut.ready (some b))
    (hs : List.Pairwise (fun p q => p.1 < q.1) s.chunks) :
    s2 = s ∧ o = ret ∧ ∀ p ∈ s.chunks, s.offset < p.1 := by
  rcases hc : s.chunks with _ | ⟨⟨k, v⟩, rest⟩
  · rw [scanBuffered_empty s ret hc] at h
    simp only [Option.some.injEq, Prod.mk.injEq] at h
    exact ⟨h.1.symm, h.2.symm, by simp⟩
  · by_cases hk : k ≤ s.offset
    · exfalso
      rcases le_or_lt (s.offset - k) v.length with hlen | hlen
      · rw [scanBuffered_fire s ret k v rest hc hk hlen] at h
        simp only [Option.some.injEq, Prod.mk.injEq] at h
        exact hne _ h.2.symm
      · rw [scanBuffered_fire_panic s ret k v rest hc hk hlen] at h
        cases h
    · have hik := Nat.not_le.mp hk
      rw [scanBuffered_idle s ret k v rest hc hik] at h
      simp only [Option.some.injEq, Prod.mk.injEq] at h
      refine ⟨h.1.symm, h.2.symm, ?_⟩
      intro p hp
      rw [hc] at hs
      rcases List.mem_cons.mp hp with hh | hh
      · rw [hh]; exact hik
      · rw [List.pairwise_cons] at hs
        exact lt_trans hik (hs.1 p hh)

/-! ## Claim C2: buffered chunks unblock the cursor -/

/-- Claim C2: on a poll whose fresh transport read is Pending or
end-of-stream, if the (key-sorted) buffered mapping starts with an entry whose
key is at or below the cursor, that entry is removed, trimmed to the cursor,
the cursor advanced by the trimmed length, and the trimmed chunk returned
Ready — no further successful transport read is required. -/
theorem c2_buffered_chunk_unblocks (s : RecvStream) (k : Nat) (v : List Nat)
    (rest : List (Nat × List Nat)) (hc : s.chunks = (k, v) :: rest)
    (hk : k ≤ s.offset) (hlen : s.offset - k ≤ v.length) :
    poll_data s ReadResult.pending
      = some (⟨s.offset + (v.length - (s.offset - k)), rest⟩,
          PollOut.ready (some (v.drop (s.offset - k))))
    ∧ poll_data s ReadResult.finished
      = some (⟨s.offset + (v.length - (s.offset - k)), rest⟩,
          PollOut.ready (some (v.drop (s.offset - k)))) := by
  have hp := scanBuffered_fire s PollOut.pending k v rest hc hk hlen
  have hf := scanBuffered_fire s (PollOut.ready none) k v rest hc hk hlen
  rw [List.length_drop] at hp hf
  exact ⟨hp, hf⟩

/-- Claim C2, witness: after chunk [0,10) has been consumed (cursor 10), a
poll whose fresh read is end-of-stream yields the previously buffered chunk
[10,20). -/
theorem c2_buffered_chunk_unblocks_witness :
    poll_data ⟨10, [(10, [20, 21, 22, 23, 24, 25, 26, 27, 28, 29])]⟩ ReadResult.finished
      = some (⟨20, []⟩,
          PollOut.ready (some [20, 21, 22, 23, 24, 25, 26, 27, 28, 29])) := by
  have := (c2_buffered_chunk_unblocks
    ⟨10, [(10, [20, 21, 22, 23, 24, 25, 26, 27, 28, 29])]⟩ 10
    [20, 21, 22, 23, 24, 25, 26, 27, 28, 29] [] rfl (by decide) (by decide)).2
  simpa using this

/-! ## Claim C3: overlap trimming -/

/-- Claim C3, counterexample: a chunk covering [0,3) arrives while the cursor
is at 10 — it ends strictly before the cursor, so the claim says it
contributes nothing and does not cause a failure; the code instead panics
(`Bytes::advance` past the end, the `XXX overflow` line), modelled as `none`. -/
theorem c3_chunk_below_cursor_panics :
    poll_data ⟨10, []⟩ (ReadResult.rchunk [1, 2, 3] 0) = none := by
  decide

/-- Claim C3 as amended: a chunk (fresh, or first in the buffered mapping)
with starting offset at or below the cursor that extends to the cursor or
beyond yields exactly the suffix starting at the cursor (zero-length when it
ends exactly there) and advances the cursor by the suffix length; but a chunk
ending strictly below the cursor triggers the `Bytes::advance` panic instead
of contributing nothing. -/
theorem c3_overlap_trimming :
    (∀ (s : RecvStream) (data : List Nat) (off : Nat),
      off ≤ s.offset → s.offset ≤ off + data.length →
      poll_data s (ReadResult.rchunk data off)
        = some ({ s with offset := s.offset + (data.length - (s.offset - off)) },
            PollOut.ready (some (data.drop (s.offset - off)))))
    ∧ (∀ (s : RecvStream) (k : Nat) (v : List Nat) (rest : List (Nat × List Nat)),
      s.chunks = (k, v) :: rest → k ≤ s.offset → s.offset ≤ k + v.length →
      poll_data s ReadResult.pending
        = some (⟨s.offset + (v.length - (s.offset - k)), rest⟩,
            PollOut.ready (some (v.drop (s.offset - k)))))
    ∧ (∀ (s : RecvStream) (data : List Nat) (off : Nat),
      off ≤ s.offset → off + data.length < s.offset →
      poll_data s (ReadResult.rchunk data off) = none) := by
  refine ⟨fun s data off h1 h2 => ?_, fun s k v rest hc hk h2 => ?_,
    fun s data off h1 h2 => ?_⟩
  · have := poll_data_fresh s data off h1 (by omega)
    rw [List.length_drop] at this
    exact this
  · exact (c2_buffered_chunk_unblocks s k v rest hc hk (by omega)).1
  · exact poll_data_fresh_panic s data off h1 (by omega)

/-- Claim C3 amended, witness: an overlapping fresh chunk [3,6) at cursor 5
yields only its suffix [5,6); a fresh chunk ending exactly at the cursor
yields a zero-length chunk without moving the cursor; an overlapping buffered
entry behaves the same. -/
theorem c3_overlap_trimming_witness :
    poll_data ⟨5, []⟩ (ReadResult.rchunk [30, 31, 32] 3)
      = some (⟨6, []⟩, PollOut.ready (some [32]))
    ∧ poll_data ⟨3, []⟩ (ReadResult.rchunk [1, 2, 3] 0)
      = some (⟨3, []⟩, PollOut.ready (some []))
    ∧ poll_data ⟨5, [(3, [30, 31, 32])]⟩ ReadResult.pending
      = some (⟨6, []⟩, PollOut.ready (some [32])) := by
  refine ⟨?_, ?_, ?_⟩
  · simpa using c3_overlap_trimming.1 ⟨5, []⟩ [30, 31, 32] 3 (by decide) (by decide)
  · simpa using c3_overlap_trimming.1 ⟨3, []⟩ [1, 2, 3] 0 (by decide) (by decide)
  · simpa using c3_overlap_trimming.2.1 ⟨5, [(3, [30, 31, 32])]⟩ 3 [30, 31, 32] []
      rfl (by decide) (by decide)

/-! ## Claim C4: no eligible entry left in the mapping -/

/-- Claim C4, counterexample: with chunk [10,11) buffered and the cursor at 0,
an in-order chunk [0,10) arrives; the poll returns it through the early path
that bypasses the buffered scan, so after the completed poll the mapping still
contains the entry with key 10 ≤ the advanced cursor 10. -/
theorem c4_eligible_entry_left :
    poll_data ⟨0, [(10, [99])]⟩ (ReadResult.rchunk [0, 1, 2, 3, 4, 5, 6, 7, 8, 9] 0)
      = some (⟨10, [(10, [99])]⟩, PollOut.ready (some [0, 1, 2, 3, 4, 5, 6, 7, 8, 9]))
    ∧ ((⟨10, [(10, [99])]⟩ : RecvStream).chunks.any
        (fun p => p.1 ≤ (⟨10, [(10, [99])]⟩ : RecvStream).offset)) = true := by
  decide

/-- Claim C4 as amended: after a completed `poll_data` call that returns
Pending or end-of-stream, the (key-sorted) buffered mapping contains no entry
whose key is at or below the cursor; a call that yields a chunk may leave such
an entry behind (it is drained by subsequent polls). -/
theorem c4_no_eligible_after_quiet_poll (s : RecvStream) (r : ReadResult)
    (s2 : RecvStream) (o : PollOut)
    (hs : List.Pairwise (fun p q => p.1 < q.1) s.chunks)
    (h : poll_data s r = some (s2, o))
    (ho : o = PollOut.pending ∨ o = PollOut.ready none) :
    ∀ p ∈ s2.chunks, s2.offset < p.1 := by
  have hne : ∀ b, o ≠ PollOut.ready (some b) := by
    intro b hb
    rcases ho with h1 | h1 <;> (rw [hb] at h1; simp at h1)
  match r with
  | .rerror e =>
    exfalso
    simp only [poll_data, Option.some.injEq, Prod.mk.injEq] at h
    rcases ho with h1 | h1 <;> (rw [← h.2] at h1; simp at h1)
  | .pending =>
    have := scan_no_yield s PollOut.pending s2 o h hne hs
    rw [this.1]
    exact this.2.2
  | .finished =>
    have := scan_no_yield s (PollOut.ready none) s2 o h hne hs
    rw [this.1]
    exact this.2.2
  | .rchunk data off =>
    by_cases h1 : off ≤ s.offset
    · exfalso
      simp only [poll_data, if_pos h1] at h
      unfold bytesAdvance at h
      by_cases h2 : s.offset - off ≤ data.length
      · rw [if_pos h2] at h
        simp only [Option.map, Option.some.injEq, Prod.mk.injEq] at h
        exact hne _ h.2.symm
      · rw [if_neg h2] at h
        simp at h
    · simp only [poll_data, if_neg h1] at h
      have hins : List.Pairwise (fun p q => p.1 < q.1)
          (btInsert off data s.chunks) := btInsert_pairwise off data hs
      have := scan_no_yield _ PollOut.pending s2 o h hne hins
      rw [this.1]
      exact this.2.2

/-- Claim C4 amended, witness: a Pending poll against a buffer holding only
the out-of-reach entry (5, [9]) leaves every buffered key beyond the
cursor 0; instantiated at that single entry. -/
theorem c4_no_eligible_after_quiet_poll_witness :
    poll_data ⟨0, [(5, [9])]⟩ ReadResult.pending
      = some (⟨0, [(5, [9])]⟩, PollOut.pending)
    ∧ (0 : Nat) < 5 :=
  ⟨by decide,
    c4_no_eligible_after_quiet_poll ⟨0, [(5, [9])]⟩ ReadResult.pending
      ⟨0, [(5, [9])]⟩ PollOut.pending (by simp) (by decide) (Or.inl rfl)
      (5, [9]) (by simp)⟩

/-! ## Claim C5: the open-stream in-flight slot -/

/-- Claim C5, failing input: a fresh `Connection` whose first
`poll_open_bidi_stream` / `poll_open_send_stream` call completes Ready(Ok).
The claim says the in-flight slot is cleared before the new stream is yielded;
evaluating the code shows the stream is yielded (`opened`) while the slot
still holds the completed operation (`some 0`), which the next call re-polls
instead of starting a fresh open. The single-in-flight parts of the claim do
hold: a repeated poll while Pending resumes the same operation and the open
counter stays at 1. -/
theorem c5_slot_never_cleared :
    poll_open_bidi_stream ⟨none, 0, none, 0⟩ OpenPoll.ready_ok
        = (⟨some 0, 1, none, 0⟩, OpenOut.opened)
    ∧ poll_open_send_stream ⟨none, 0, none, 0⟩ OpenPoll.ready_ok
        = (⟨none, 0, some 0, 1⟩, OpenOut.opened)
    ∧ poll_open_bidi_stream ⟨none, 0, none, 0⟩ OpenPoll.pending
        = (⟨some 0, 1, none, 0⟩, OpenOut.pending)
    ∧ poll_open_bidi_stream ⟨some 0, 1, none, 0⟩ OpenPoll.pending
        = (⟨some 0, 1, none, 0⟩, OpenOut.pending) := by
  decide

/-! ## Claim C6: send_data single-slot enforcement -/

/-- Claim C6: `send_data` returns NotReady exactly when a buffer is already
pending in the write slot, and then leaves the slot and the transport state
unchanged; with an empty slot it stores the buffer and succeeds. -/
theorem c6_send_single_slot (s : SendStream) (data : List Nat) :
    ((send_data s data).2 = SendDataOut.notReady ↔ s.writing.isSome = true)
    ∧ (s.writing.isSome = true → send_data s data = (s, SendDataOut.notReady))
    ∧ (s.writing = none →
        send_data s data = (⟨some data, s.written⟩, SendDataOut.ok)) := by
  cases h : s.writing <;> cases s <;> simp_all [send_data]

/-- Claim C6, witness. -/
theorem c6_send_single_slot_witness :
    send_data ⟨some [1], []⟩ [2] = (⟨some [1], []⟩, SendDataOut.notReady)
    ∧ send_data ⟨none, [3]⟩ [2] = (⟨some [2], [3]⟩, SendDataOut.ok) :=
  ⟨(c6_send_single_slot ⟨some [1], []⟩ [2]).2.1 rfl,
    (c6_send_single_slot ⟨none, [3]⟩ [2]).2.2 rfl⟩

/-! ## Claim C7: poll_ready write draining -/

/-- Claim C7, counterexample: buffer [1,2] is pending; the first poll's
`write_all` gets 1 byte accepted before Pending, the second poll's fresh
`write_all` (built again from the whole untouched buffer) completes. The
transport has then received [1,1,2] — byte 1 was written twice — although the
claim says no bytes are duplicated across polls. -/
theorem c7_duplicated_bytes :
    poll_ready ⟨some [1, 2], []⟩ (WritePollIn.accept 1)
        = (⟨some [1, 2], [1]⟩, SendPollOut.pending)
    ∧ poll_ready ⟨some [1, 2], [1]⟩ (WritePollIn.accept 2)
        = (⟨none, [1, 1, 2]⟩, SendPollOut.ready_ok)
    ∧ ([1, 1, 2] : List Nat) ≠ [1, 2] := by
  decide

/-- Claim C7 as amended: with no pending buffer `poll_ready` is Ready(Ok) at
once; with a pending buffer it is Pending while a poll's write is partial and
Ready(Ok) with the slot cleared once a poll's write completes — but on a
partial write the slot is not advanced, so the bytes already accepted are
written again by later polls (duplication into the transport log). -/
theorem c7_poll_ready_drain (s : SendStream) (n : Nat) (data : List Nat) :
    (s.writing = none → ∀ w, poll_ready s w = (s, SendPollOut.ready_ok))
    ∧ (s.writing = some data → n < data.length →
        poll_ready s (WritePollIn.accept n)
          = (⟨some data, s.written ++ data.take n⟩, SendPollOut.pending))
    ∧ (s.writing = some data → data.length ≤ n →
        poll_ready s (WritePollIn.accept n)
          = (⟨none, s.written ++ data⟩, SendPollOut.ready_ok)) := by
  refine ⟨fun h w => ?_, fun h hn => ?_, fun h hn => ?_⟩
  · cases s
    cases w <;> simp_all [poll_ready]
  · cases s
    simp_all [poll_ready, Nat.not_le.mpr hn]
  · cases s
    simp_all [poll_ready, hn]

/-- Claim C7 amended, witness. -/
theorem c7_poll_ready_drain_witness :
    poll_ready ⟨none, [9]⟩ (WritePollIn.accept 0) = (⟨none, [9]⟩, SendPollOut.ready_ok)
    ∧ poll_ready ⟨some [1, 2], []⟩ (WritePollIn.accept 1)
        = (⟨some [1, 2], [1]⟩, SendPollOut.pending)
    ∧ poll_ready ⟨some [1, 2], []⟩ (WritePollIn.accept 2)
        = (⟨none, [1, 2]⟩, SendPollOut.ready_ok) :=
  ⟨(c7_poll_ready_drain ⟨none, [9]⟩ 0 []).1 rfl (WritePollIn.accept 0),
    (c7_poll_ready_drain ⟨some [1, 2], []⟩ 1 [1, 2]).2.1 rfl (by decide),
    (c7_poll_ready_drain ⟨some [1, 2], []⟩ 2 [1, 2]).2.2 rfl (by decide)⟩

/-! ## Claim C8: transport read error handling -/

/-- Claim C8, counterexample: a stream with buffered chunk (5, [9]) hits a
transport read error. The poll does propagate the error immediately, but the
buffered mapping is left unchanged rather than discarded, and the stream is
not terminal: a later poll still yields fresh and buffered data. -/
theorem c8_buffer_not_discarded :
    poll_data ⟨0, [(5, [9])]⟩ (ReadResult.rerror 3)
        = some (⟨0, [(5, [9])]⟩, PollOut.perror 3)
    ∧ poll_data ⟨0, [(5, [9])]⟩ (ReadResult.rchunk [1, 2, 3, 4, 5] 0)
        = some (⟨5, [(5, [9])]⟩, PollOut.ready (some [1, 2, 3, 4, 5]))
    ∧ poll_data ⟨5, [(5, [9])]⟩ ReadResult.pending
        = some (⟨6, []⟩, PollOut.ready (some [9])) := by
  decide

/-- Claim C8 as amended: a transport read error is propagated to the caller
immediately on that poll — before the buffered scan, so even an eligible
buffered chunk is bypassed — but the stream state, including the buffered
chunk mapping, is left completely unchanged: nothing is discarded and no
terminal state is recorded. -/
theorem c8_error_propagated_state_kept (s : RecvStream) (e : Nat) :
    poll_data s (ReadResult.rerror e) = some (s, PollOut.perror e) := rfl

/-! ## Claim C9: error-code conversion asymmetry -/

/-- Claim C9: for an application error code too large for the transport's
varint (greater than 2^62 - 1), `reset` degrades to the maximum representable
value, while `stop_sending` hits the `expect` panic (`none`); representable
codes pass through both unchanged. -/
theorem c9_code_conversion_asymmetry (code : Nat) :
    (varIntMax < code → reset code = varIntMax ∧ stop_sending code = none)
    ∧ (code ≤ varIntMax → reset code = code ∧ stop_sending code = some code) := by
  constructor
  · intro h
    have : ¬ code ≤ varIntMax := Nat.not_le.mpr h
    simp [reset, stop_sending, varIntFromU64, this]
  · intro h
    simp [reset, stop_sending, varIntFromU64, h]

/-- Claim C9, witness at code 2^62 (just above the varint maximum) and at a
small valid code. -/
theorem c9_code_conversion_asymmetry_witness :
    (reset 4611686018427387904 = varIntMax ∧ stop_sending 4611686018427387904 = none)
    ∧ (reset 7 = 7 ∧ stop_sending 7 = some 7) :=
  ⟨(c9_code_conversion_asymmetry 4611686018427387904).1 (by decide),
    (c9_code_conversion_asymmetry 7).2 (by decide)⟩

/-! ## Claim C10: split is a pure projection -/

/-- Claim C10: `split` returns exactly the contained send and receive halves
with all internal state — pending write slot, transport write log, cursor
offset, buffered chunk mapping — unchanged, and performs no transport
operation (the transport-visible components are returned verbatim). -/
theorem c10_split_projection (b : BidiStream) :
    (split b).1.writing = b.send.writing
    ∧ (split b).1.written = b.send.written
    ∧ (split b).2.offset = b.recv.offset
    ∧ (split b).2.chunks = b.recv.chunks
    ∧ split b = (b.send, b.recv) :=
  ⟨rfl, rfl, rfl, rfl, rfl⟩

/-! ## Claim C1: lemma stack for the order invariant -/

theorem poll_data_pending_eq (s : RecvStream) :
    poll_data s ReadResult.pending = scanBuffered s PollOut.pending := rfl

theorem poll_data_finished_eq (s : RecvStream) :
    poll_data s ReadResult.finished = scanBuffered s (PollOut.ready none) := rfl

theorem runPolls_nil (s : RecvStream) : runPolls s [] = some (s, []) := rfl

theorem runPolls_cons (s : RecvStream) (r : ReadResult) (rs : List ReadResult) :
    runPolls s (r :: rs)
      = (poll_data s r).bind fun p =>
          (runPolls p.1 rs).map fun q => (q.1, p.2 :: q.2) := rfl

theorem runPolls_cons_some {s s1 s2 : RecvStream} {r : ReadResult}
    {rs : List ReadResult} {o : PollOut} {os : List PollOut}
    (hp : poll_data s r = some (s1, o)) (hq : runPolls s1 rs = some (s2, os)) :
    runPolls s (r :: rs) = some (s2, o :: os) := by
  rw [runPolls_cons, hp]
  simp [hq]

theorem runPolls_append_some (s s1 s2 : RecvStream) (o1 o2 : List PollOut)
    (l1 l2 : List ReadResult)
    (h1 : runPolls s l1 = some (s1, o1)) (h2 : runPolls s1 l2 = some (s2, o2)) :
    runPolls s (l1 ++ l2) = some (s2, o1 ++ o2) := by
  induction l1 generalizing s o1 with
  | nil =>
    rw [runPolls_nil] at h1
    simp only [Option.some.injEq, Prod.mk.injEq] at h1
    obtain ⟨ha, hb⟩ := h1
    rw [← ha] at h2
    rw [List.nil_append, h2, ← hb, List.nil_append]
  | cons r rs ih =>
    rw [runPolls_cons] at h1
    rcases hp : poll_data s r with _ | ⟨sa, oa⟩
    · rw [hp] at h1; cases h1
    · rw [hp] at h1
      simp only [Option.some_bind] at h1
      rcases hq : runPolls sa rs with _ | ⟨sb, ob⟩
      · rw [hq] at h1; simp at h1
      · rw [hq] at h1
        simp only [Option.map_some', Option.some.injEq, Prod.mk.injEq] at h1
        obtain ⟨hsb, hob⟩ := h1
        rw [hsb] at hq
        have := ih sa ob hq
        rw [List.cons_append]
        rw [runPolls_cons_some hp this, ← hob, List.cons_append]

theorem collectBytes_append (l1 l2 : List PollOut) :
    collectBytes (l1 ++ l2) = collectBytes l1 ++ collectBytes l2 := by
  induction l1 with
  | nil => simp [collectBytes]
  | cons x rest ih =>
    match x with
    | PollOut.ready (some b) => simp [collectBytes, ih]
    | PollOut.ready none => simp [collectBytes, ih]
    | PollOut.pending => simp [collectBytes, ih]
    | PollOut.perror e => simp [collectBytes, ih]

theorem getLast?_cons_of_ne (a : PollOut) (l : List PollOut) (h : l ≠ []) :
    (a :: l).getLast? = l.getLast? := by
  cases l with
  | nil => exact absurd rfl h
  | cons b t => simp [List.getLast?]

theorem drop_add (l : List Nat) (a b : Nat) : (l.drop a).drop b = l.drop (a + b) := by
  rw [List.drop_drop, Nat.add_comm]

theorem mkSegs_length : ∀ (sizes : List Nat) (off : Nat) (rest : List Nat),
    (mkSegs off rest sizes).length = sizes.length := by
  intro sizes
  induction sizes with
  | nil => intro off rest; rfl
  | cons n ns ih => intro off rest; simp [mkSegs, ih]

theorem mkSegs_key_ge : ∀ {sizes : List Nat} {off : Nat} {rest : List Nat}
    {p : Nat × List Nat}, p ∈ mkSegs off rest sizes → off ≤ p.1 := by
  intro sizes
  induction sizes with
  | nil => intro off rest p hp; simp [mkSegs] at hp
  | cons n ns ih =>
    intro off rest p hp
    simp only [mkSegs] at hp
    rcases List.mem_cons.mp hp with h | h
    · rw [h]
    · exact le_trans (Nat.le_add_right off n) (ih h)

theorem mkSegs_keys_pairwise : ∀ {sizes : List Nat} {off : Nat} {rest : List Nat},
    (∀ n ∈ sizes, 0 < n) →
    List.Pairwise (fun a b => a < b) ((mkSegs off rest sizes).map Prod.fst) := by
  intro sizes
  induction sizes with
  | nil => intro off rest _; simp [mkSegs]
  | cons n ns ih =>
    intro off rest hpos
    simp only [mkSegs, List.map_cons, List.pairwise_cons]
    refine ⟨?_, ih fun m hm => hpos m (List.mem_cons_of_mem n hm)⟩
    intro x hx
    obtain ⟨p, hp, hpx⟩ := List.mem_map.mp hx
    have h1 : off + n ≤ p.1 := mkSegs_key_ge hp
    have h2 : 0 < n := hpos n (List.mem_cons_self n ns)
    omega

theorem mkSegs_mem_head {off : Nat} {rest v : List Nat} {n0 : Nat} {ns : List Nat}
    (hpos : ∀ n ∈ n0 :: ns, 0 < n)
    (hmem : (off, v) ∈ mkSegs off rest (n0 :: ns)) : v = rest.take n0 := by
  simp only [mkSegs] at hmem
  rcases List.mem_cons.mp hmem with h | h
  · have := Prod.mk.injEq off v off (rest.take n0) ▸ h
    simp at this
    exact this
  · exfalso
    have h1 : off + n0 ≤ (off, v).1 := mkSegs_key_ge h
    have h2 : 0 < n0 := hpos n0 (List.mem_cons_self n0 ns)
    simp at h1
    omega

/-- A delivered or buffered chunk whose key is at or below the cursor is, in
any state satisfying the invariant, exactly the head segment of the remaining
canonical chunking: its key equals the cursor, it is the prefix of the
unread region, and its size is the head of the remaining size list. -/
theorem seg_at_cursor (orig : List Nat) (sizes : List Nat)
    (L : List (Nat × List Nat)) (off k : Nat) (v : List Nat)
    (hpos : ∀ n ∈ sizes, 0 < n)
    (hsum : off + sizes.sum = orig.length)
    (hperm : L.Perm (mkSegs off (orig.drop off) sizes))
    (hmem : (k, v) ∈ L) (hk : k ≤ off) :
    ∃ n0 ns, k = off ∧ sizes = n0 :: ns ∧ v = (orig.drop off).take n0
      ∧ v.length = n0 := by
  have hmem2 : (k, v) ∈ mkSegs off (orig.drop off) sizes := hperm.mem_iff.mp hmem
  have hko : off ≤ k := by
    have := mkSegs_key_ge hmem2
    simpa using this
  have hkeq : k = off := Nat.le_antisymm hk hko
  cases sizes with
  | nil => simp [mkSegs] at hmem2
  | cons n0 ns =>
    rw [hkeq] at hmem2
    have hv : v = (orig.drop off).take n0 := mkSegs_mem_head hpos hmem2
    have hlen : v.length = n0 := by
      rw [hv, List.length_take, List.length_drop]
      have hsc : (n0 :: ns).sum = n0 + ns.sum := List.sum_cons
      omega
    exact ⟨n0, ns, hkeq, rfl, hv, hlen⟩

theorem perm_step {L L2 M : List (Nat × List Nat)} {x : Nat × List Nat}
    (h1 : L.Perm (x :: M)) (h2 : L.Perm (x :: L2)) : L2.Perm M :=
  (h2.symm.trans h1).cons_inv

/-- Buffering a freshly arrived out-of-order chunk (the head of the pending
arrivals, key beyond the cursor) preserves the invariant: the chunk merely
moves from the arrival queue into the sorted buffered map. -/
theorem inv_insert {orig sizes : List Nat} {rem : List (Nat × List Nat)}
    {s : RecvStream} {k : Nat} {v : List Nat}
    (hInv : Inv orig sizes ((k, v) :: rem) s) (_hk : s.offset < k) :
    Inv orig sizes rem { s with chunks := btInsert k v s.chunks } := by
  obtain ⟨hpos, hsum, hsorted, hperm⟩ := hInv
  have hmid : (s.chunks ++ (k, v) :: rem).Perm ((k, v) :: (s.chunks ++ rem)) :=
    List.perm_middle
  have hknotin : k ∉ s.chunks.map Prod.fst := by
    intro hkin
    have hkeys : ((s.chunks ++ (k, v) :: rem).map Prod.fst).Perm
        ((mkSegs s.offset (orig.drop s.offset) sizes).map Prod.fst) := hperm.map _
    have hnd : ((mkSegs s.offset (orig.drop s.offset) sizes).map Prod.fst).Nodup :=
      (mkSegs_keys_pairwise hpos).imp Nat.ne_of_lt
    have hnd2 : ((s.chunks ++ (k, v) :: rem).map Prod.fst).Nodup :=
      hkeys.nodup_iff.mpr hnd
    rw [List.map_append] at hnd2
    have hdisj := (List.nodup_append.mp hnd2).2.2
    exact hdisj hkin (by simp)
  constructor
  · exact hpos
  · exact hsum
  · exact btInsert_pairwise k v hsorted
  · exact ((btInsert_perm k v hknotin).append_right rem).trans
      (List.perm_middle.symm.trans hperm)

/-- When the head of the (key-sorted) buffered map has key at or below the
cursor, the buffered scan fires under the invariant: the entry is exactly the
next canonical segment, the scan yields it whole (trim 0) and advances the
cursor by its size, and the invariant continues with the tail size list. -/
theorem inv_scan_fire {orig sizes : List Nat} {rem : List (Nat × List Nat)}
    {s : RecvStream} {k : Nat} {v : List Nat} {rest : List (Nat × List Nat)}
    (ret : PollOut)
    (hInv : Inv orig sizes rem s) (hc : s.chunks = (k, v) :: rest)
    (hk : k ≤ s.offset) :
    ∃ n0 ns, sizes = n0 :: ns ∧ v.length = n0
      ∧ scanBuffered s ret
          = some (⟨s.offset + n0, rest⟩, PollOut.ready (some v))
      ∧ Inv orig ns rem ⟨s.offset + n0, rest⟩
      ∧ v ++ orig.drop (s.offset + n0) = orig.drop s.offset := by
  obtain ⟨hpos, hsum, hsorted, hperm⟩ := hInv
  have hmem : (k, v) ∈ s.chunks ++ rem := by
    rw [hc]; exact List.mem_append_left _ (List.mem_cons_self _ _)
  obtain ⟨n0, ns, hkeq, hsz, hv, hlen⟩ :=
    seg_at_cursor orig sizes _ s.offset k v hpos hsum hperm hmem hk
  have hfire := scanBuffered_fire s ret k v rest hc hk
    (by rw [hkeq, Nat.sub_self]; exact Nat.zero_le _)
  rw [hkeq, Nat.sub_self, List.drop_zero, hlen] at hfire
  have hdrop : orig.drop (s.offset + n0) = (orig.drop s.offset).drop n0 :=
    (drop_add orig s.offset n0).symm
  have hsegs_eq : mkSegs s.offset (orig.drop s.offset) sizes
      = (s.offset, v) :: mkSegs (s.offset + n0) (orig.drop (s.offset + n0)) ns := by
    rw [hsz]
    simp only [mkSegs]
    rw [← hv, hdrop]
  have hperm2 : (rest ++ rem).Perm
      (mkSegs (s.offset + n0) (orig.drop (s.offset + n0)) ns) := by
    have h1 : (s.chunks ++ rem).Perm
        ((s.offset, v) :: mkSegs (s.offset + n0) (orig.drop (s.offset + n0)) ns) := by
      rw [← hsegs_eq]; exact hperm
    have h2 : (s.chunks ++ rem).Perm ((s.offset, v) :: (rest ++ rem)) := by
      rw [hc, hkeq]
      exact List.Perm.refl _
    exact perm_step h1 h2
  refine ⟨n0, ns, hsz, hlen, hfire, ?_, ?_⟩
  · constructor
    · intro n hn
      exact hpos n (by rw [hsz]; exact List.mem_cons_of_mem n0 hn)
    · have : sizes.sum = n0 + ns.sum := by rw [hsz]; exact List.sum_cons
      show s.offset + n0 + ns.sum = orig.length
      omega
    · rw [hc] at hsorted
      exact (List.pairwise_cons.mp hsorted).2
    · exact hperm2
  · rw [hdrop, hv]
    exact List.take_append_drop n0 (orig.drop s.offset)

/-- One poll that consumes the next arriving chunk preserves the invariant:
the poll succeeds (no panic), the bytes it yields (if any) extend the yielded
prefix of `orig`, and the remaining size list never grows. -/
theorem arrival_step {orig sizes : List Nat} {rem : List (Nat × List Nat)}
    {s : RecvStream} {k : Nat} {v : List Nat}
    (hInv : Inv orig sizes ((k, v) :: rem) s) :
    ∃ s2 sizes2 o, poll_data s (ReadResult.rchunk v k) = some (s2, o)
      ∧ Inv orig sizes2 rem s2
      ∧ collectBytes [o] ++ orig.drop s2.offset = orig.drop s.offset
      ∧ sizes2.length ≤ sizes.length := by
  by_cases hk : k ≤ s.offset
  · obtain ⟨hpos, hsum, hsorted, hperm⟩ := hInv
    have hmem : (k, v) ∈ s.chunks ++ (k, v) :: rem :=
      List.mem_append_right _ (List.mem_cons_self _ _)
    obtain ⟨n0, ns, hkeq, hsz, hv, hlen⟩ :=
      seg_at_cursor orig sizes _ s.offset k v hpos hsum hperm hmem hk
    subst hkeq
    have h0 : s.offset - s.offset = 0 := Nat.sub_self _
    have hpoll := poll_data_fresh s v s.offset (le_refl _)
      (by rw [h0]; exact Nat.zero_le _)
    rw [h0, List.drop_zero, hlen] at hpoll
    have hdrop : orig.drop (s.offset + n0) = (orig.drop s.offset).drop n0 :=
      (drop_add orig s.offset n0).symm
    have hsegs_eq : mkSegs s.offset (orig.drop s.offset) sizes
        = (s.offset, v) :: mkSegs (s.offset + n0) (orig.drop (s.offset + n0)) ns := by
      rw [hsz]
      simp only [mkSegs]
      rw [← hv, hdrop]
    have hperm2 : (s.chunks ++ rem).Perm
        (mkSegs (s.offset + n0) (orig.drop (s.offset + n0)) ns) := by
      have h1 : (s.chunks ++ (s.offset, v) :: rem).Perm
          ((s.offset, v) :: mkSegs (s.offset + n0) (orig.drop (s.offset + n0)) ns) := by
        rw [← hsegs_eq]; exact hperm
      exact perm_step h1 List.perm_middle
    refine ⟨{ s with offset := s.offset + n0 }, ns, PollOut.ready (some v),
      hpoll, ?_, ?_, by rw [hsz]; simp⟩
    · constructor
      · intro n hn
        exact hpos n (by rw [hsz]; exact List.mem_cons_of_mem n0 hn)
      · have : sizes.sum = n0 + ns.sum := by rw [hsz]; exact List.sum_cons
        show s.offset + n0 + ns.sum = orig.length
        omega
      · exact hsorted
      · exact hperm2
    · show v ++ collectBytes [] ++ orig.drop (s.offset + n0) = orig.drop s.offset
      rw [hdrop, hv]
      simp only [collectBytes, List.append_nil]
      exact List.take_append_drop n0 (orig.drop s.offset)
  · have hko : s.offset < k := Nat.not_le.mp hk
    have hInv1 := inv_insert hInv hko
    have hpoll_eq : poll_data s (ReadResult.rchunk v k)
        = scanBuffered { s with chunks := btInsert k v s.chunks } PollOut.pending := by
      simp only [poll_data, if_neg hk]
    rcases hc : ({ s with chunks := btInsert k v s.chunks } : RecvStream).chunks
      with _ | ⟨⟨k0, v0⟩, rest⟩
    · refine ⟨{ s with chunks := btInsert k v s.chunks }, sizes, PollOut.pending,
        ?_, hInv1, by simp [collectBytes], le_refl _⟩
      rw [hpoll_eq]
      exact scanBuffered_empty _ _ hc
    · by_cases hk0 : k0 ≤ s.offset
      · obtain ⟨m0, ms, hsz2, hlen0, hfire, hInv2, hyield⟩ :=
          inv_scan_fire PollOut.pending hInv1 hc hk0
        refine ⟨⟨s.offset + m0, rest⟩, ms, PollOut.ready (some v0), ?_, hInv2, ?_,
          by rw [hsz2]; simp⟩
        · rw [hpoll_eq]
          exact hfire
        · show v0 ++ collectBytes [] ++ orig.drop (s.offset + m0) = orig.drop s.offset
          simp only [collectBytes, List.append_nil]
          exact hyield
      · refine ⟨{ s with chunks := btInsert k v s.chunks }, sizes, PollOut.pending,
          ?_, hInv1, by simp [collectBytes], le_refl _⟩
        rw [hpoll_eq]
        exact scanBuffered_idle _ _ k0 v0 rest hc (Nat.not_le.mp hk0)

/-- Driving every pending arrival through `poll_data`, one per poll: the run
never panics, preserves the invariant with no arrivals left, only ever yields
bytes extending the in-order prefix, and does not grow the size list. -/
theorem arrival_run (orig : List Nat) :
    ∀ (arr : List (Nat × List Nat)) (sizes : List Nat) (s : RecvStream),
      Inv orig sizes arr s →
      ∃ s2 sizes2 out,
        runPolls s (arr.map (fun p => ReadResult.rchunk p.2 p.1)) = some (s2, out)
        ∧ Inv orig sizes2 [] s2
        ∧ collectBytes out ++ orig.drop s2.offset = orig.drop s.offset
        ∧ sizes2.length ≤ sizes.length := by
  intro arr
  induction arr with
  | nil =>
    intro sizes s hInv
    exact ⟨s, sizes, [], runPolls_nil s, hInv, by simp [collectBytes], le_refl _⟩
  | cons p rest ih =>
    intro sizes s hInv
    obtain ⟨kp, vp⟩ := p
    obtain ⟨s1, sizes1, o, hpoll, hInv1, hyield1, hlen1⟩ := arrival_step hInv
    obtain ⟨s2, sizes2, out, hrun, hInv2, hyield2, hlen2⟩ := ih sizes1 s1 hInv1
    refine ⟨s2, sizes2, o :: out, ?_, hInv2, ?_, le_trans hlen2 hlen1⟩
    · simpa using runPolls_cons_some hpoll hrun
    · have hsplit : collectBytes (o :: out) = collectBytes [o] ++ collectBytes out := by
        rw [← collectBytes_append]
        rfl
      rw [hsplit, List.append_assoc, hyield2, hyield1]

/-- Once all arrivals are delivered, polling `k + 1` more times with the
transport reporting end-of-stream drains the whole buffer (one chunk per
poll), finishes at cursor = length with an empty buffer, and the final poll
reports end-of-stream. -/
theorem drain_run (orig : List Nat) :
    ∀ (k : Nat) (sizes : List Nat) (s : RecvStream),
      Inv orig sizes [] s → sizes.length ≤ k →
      ∃ out, runPolls s (List.replicate (k + 1) ReadResult.finished)
          = some (⟨orig.length, []⟩, out)
        ∧ collectBytes out = orig.drop s.offset
        ∧ out.getLast? = some (PollOut.ready none) := by
  intro k
  induction k with
  | zero =>
    intro sizes s hInv hlen
    have hsz : sizes = [] := List.length_eq_zero.mp (Nat.le_zero.mp hlen)
    subst hsz
    obtain ⟨hpos, hsum, hsorted, hperm⟩ := hInv
    rw [List.append_nil] at hperm
    have hchunks : s.chunks = [] := hperm.eq_nil
    have hoff : s.offset = orig.length := by
      have hz : List.sum ([] : List Nat) = 0 := rfl
      omega
    have hpoll : poll_data s ReadResult.finished = some (s, PollOut.ready none) := by
      rw [poll_data_finished_eq]
      exact scanBuffered_empty s _ hchunks
    have hseq : s = (⟨orig.length, []⟩ : RecvStream) := by
      cases s
      simp_all
    rw [hseq] at hpoll
    refine ⟨[PollOut.ready none], ?_, ?_, rfl⟩
    · rw [show List.replicate 1 ReadResult.finished = [ReadResult.finished] from rfl]
      rw [hseq]
      exact runPolls_cons_some hpoll (runPolls_nil _)
    · simp [collectBytes, hoff, List.drop_length]
  | succ n ih =>
    intro sizes s hInv hlen
    rcases hsz : sizes with _ | ⟨n0, ns⟩
    · subst hsz
      obtain ⟨hpos, hsum, hsorted, hperm⟩ := hInv
      rw [List.append_nil] at hperm
      have hchunks : s.chunks = [] := hperm.eq_nil
      have hoff : s.offset = orig.length := by
        have hz : List.sum ([] : List Nat) = 0 := rfl
        omega
      have hpoll : poll_data s ReadResult.finished = some (s, PollOut.ready none) := by
        rw [poll_data_finished_eq]
        exact scanBuffered_empty s _ hchunks
      obtain ⟨out, hrun, hcb, hlast⟩ :=
        ih [] s ⟨hpos, hsum, hsorted, by rw [List.append_nil]; exact hperm⟩
          (Nat.zero_le n)
      have hne : out ≠ [] := by
        intro hx
        rw [hx] at hlast
        simp at hlast
      refine ⟨PollOut.ready none :: out, ?_, ?_, ?_⟩
      · rw [List.replicate_succ]
        exact runPolls_cons_some hpoll hrun
      · show collectBytes out = orig.drop s.offset
        exact hcb
      · rw [getLast?_cons_of_ne _ _ hne]
        exact hlast
    · have hperm2 := hInv.hperm
      rw [List.append_nil] at hperm2
      have hmem0 : (s.offset, (orig.drop s.offset).take n0) ∈ s.chunks := by
        apply hperm2.mem_iff.mpr
        rw [hsz]
        exact List.mem_cons_self _ _
      rcases hc : s.chunks with _ | ⟨⟨k0, v0⟩, rest⟩
      · rw [hc] at hmem0
        simp at hmem0
      · have hk0 : k0 ≤ s.offset := by
          rw [hc] at hmem0
          rcases List.mem_cons.mp hmem0 with h | h
          · have := congrArg Prod.fst h
            simp at this
            omega
          · have hsorted := hInv.hsorted
            rw [hc] at hsorted
            have := (List.pairwise_cons.mp hsorted).1 _ h
            simp at this
            omega
        obtain ⟨m0, ms, hsz2, hlen0, hfire, hInv2, hyield⟩ :=
          inv_scan_fire (PollOut.ready none) hInv hc hk0
        have hpoll : poll_data s ReadResult.finished
            = some (⟨s.offset + m0, rest⟩, PollOut.ready (some v0)) := by
          rw [poll_data_finished_eq]
          exact hfire
        have hms_len : ms.length ≤ n := by
          rw [hsz] at hsz2
          injection hsz2 with h1 h2
          rw [hsz] at hlen
          simp at hlen
          rw [← h2]
          omega
        obtain ⟨out, hrun, hcb, hlast⟩ := ih ms _ hInv2 hms_len
        have hne : out ≠ [] := by
          intro hx
          rw [hx] at hlast
          simp at hlast
        refine ⟨PollOut.ready (some v0) :: out, ?_, ?_, ?_⟩
        · rw [List.replicate_succ]
          exact runPolls_cons_some hpoll hrun
        · show v0 ++ collectBytes out = orig.drop s.offset
          rw [hcb]
          exact hyield
        · rw [getLast?_cons_of_ne _ _ hne]
          exact hlast

theorem getLast?_append_of_ne (l1 l2 : List PollOut) (h : l2 ≠ []) :
    (l1 ++ l2).getLast? = l2.getLast? := by
  induction l1 with
  | nil => rfl
  | cons a t ih =>
    rw [List.cons_append,
      getLast?_cons_of_ne a (t ++ l2)
        (fun hx => h (List.append_eq_nil.mp hx).2),
      ih]

/-! ## Claim C1: the order invariant -/

/-- Claim C1: for every byte region `orig` cut into chunks of positive sizes
covering it exactly, and every permutation `arr` of those chunks as the
transport arrival order, repeatedly polling `poll_data` (one fresh transport
read per poll, then end-of-stream reads) panics nowhere, yields chunks whose
concatenation is exactly `orig` — i.e. the bytes of [0, N) in strictly
increasing, contiguous offset order — finishes with cursor N and an empty
buffer, and reports end-of-stream on the final poll. -/
theorem c1_order_invariant (orig : List Nat) (sizes : List Nat)
    (arr : List (Nat × List Nat))
    (hpos : ∀ n ∈ sizes, 0 < n)
    (hsum : sizes.sum = orig.length)
    (hperm : arr.Perm (mkSegs 0 orig sizes)) :
    ∃ out,
      runPolls ⟨0, []⟩
        (arr.map (fun p => ReadResult.rchunk p.2 p.1)
          ++ List.replicate (arr.length + 1) ReadResult.finished)
        = some (⟨orig.length, []⟩, out)
      ∧ collectBytes out = orig
      ∧ out.getLast? = some (PollOut.ready none) := by
  have hInv0 : Inv orig sizes arr ⟨0, []⟩ := by
    constructor
    · exact hpos
    · show 0 + sizes.sum = orig.length
      omega
    · simp
    · show ([] ++ arr).Perm (mkSegs 0 (orig.drop 0) sizes)
      rw [List.nil_append, List.drop_zero]
      exact hperm
  obtain ⟨s2, sizes2, out1, hrun1, hInv2, hyield1, hlen1⟩ :=
    arrival_run orig arr sizes _ hInv0
  have harrlen : arr.length = sizes.length := by
    have := hperm.length_eq
    rw [mkSegs_length] at this
    exact this
  obtain ⟨out2, hrun2, hcb2, hlast2⟩ :=
    drain_run orig arr.length sizes2 s2 hInv2 (by omega)
  have hne2 : out2 ≠ [] := by
    intro hx
    rw [hx] at hlast2
    simp at hlast2
  refine ⟨out1 ++ out2, ?_, ?_, ?_⟩
  · exact runPolls_append_some _ _ _ _ _ _ _ hrun1 hrun2
  · rw [collectBytes_append, hcb2]
    simpa using hyield1
  · rw [getLast?_append_of_ne out1 out2 hne2]
    exact hlast2

/-- Claim C1, witness: the region [1,2,3,4] cut as [0,2) and [2,4), arriving
out of order. -/
theorem c1_order_invariant_witness :
    (∀ n ∈ [2, 2], 0 < n)
    ∧ List.sum [2, 2] = List.length [1, 2, 3, 4]
    ∧ List.Perm [(2, [3, 4]), (0, [1, 2])] (mkSegs 0 [1, 2, 3, 4] [2, 2])
    ∧ ∃ out,
        runPolls ⟨0, []⟩
          ([(2, [3, 4]), (0, [1, 2])].map (fun p => ReadResult.rchunk p.2 p.1)
            ++ List.replicate ([((2 : Nat), [3, 4]), (0, [1, 2])].length + 1)
                ReadResult.finished)
          = some (⟨List.length [1, 2, 3, 4], []⟩, out)
        ∧ collectBytes out = [1, 2, 3, 4]
        ∧ out.getLast? = some (PollOut.ready none) :=
  ⟨by decide, by decide, by decide,
    c1_order_invariant [1, 2, 3, 4] [2, 2] [(2, [3, 4]), (0, [1, 2])]
      (by decide) (by decide) (by decide)⟩

end H3Quinn
